import Mathlib

namespace Curation

/-! ## Definitions -/

def TOP_N_IMAGES : ℕ := 100

def GLOBAL_HASH_THRESHOLD : ℕ := 3

def INTRA_SOURCE_HASH_THRESHOLD : ℕ := 10

def MAX_CONTOUR_COUNT : ℕ := 3

def MIN_SHARPNESS_THRESHOLD : ℚ := 50

/-- Weight table `WEIGHTS` of `04_score_masked.py`: pose 0.60. -/
def WEIGHT_POSE : ℚ := 6 / 10

/-- Weight table `WEIGHTS` of `04_score_masked.py`: sharpness 0.30. -/
def WEIGHT_SHARPNESS : ℚ := 3 / 10

/-- Weight table `WEIGHTS` of `04_score_masked.py`: brightness 0.10. -/
def WEIGHT_BRIGHTNESS : ℚ := 1 / 10

structure Item where
  phash : List Bool
  source_video : String
  frame_index : ℕ
  final_score : ℚ
deriving DecidableEq

/-- Hamming distance between two perceptual hashes, the meaning of
`current_hash - seen_hash` on `imagehash` values: the number of differing
bits. -/
def hashDist (a b : List Bool) : ℕ :=
  (List.zipWith (fun x y => x != y) a b).count true

/-- Selector state: `top_n_items`, `seen_global_hashes`,
`seen_source_hashes` and `seen_source_frame_indices` of the selection loop.
The Python `set` and `defaultdict` are modelled as a list and as total
functions returning `[]` by default. -/
structure SelState where
  top_n_items : List Item
  seen_global_hashes : List (List Bool)
  seen_source_hashes : String → List (List Bool)
  seen_source_frame_indices : String → List ℕ

def initSelState : SelState :=
  { top_n_items := []
    seen_global_hashes := []
    seen_source_hashes := fun _ => []
    seen_source_frame_indices := fun _ => [] }

/-- The temporal-spread test run when `selected_count == 5`
(`04_score_masked.py` lines 348-357): `avg_index = sum(selected_indices)/5`,
`midpoint = total_frames/2`; if the accepted cluster skews early the candidate
must sit past `(avg_index + total_frames)/2`, otherwise before
`avg_index/2`. -/
def temporalTestPassed (selected_indices : List ℕ) (total_frames : ℕ)
    (current_index : ℕ) : Bool :=
  let avg_index : ℚ := (selected_indices.sum : ℚ) / 5
  let midpoint : ℚ := (total_frames : ℚ) / 2
  if avg_index < midpoint then
    decide ((avg_index + (total_frames : ℚ)) / 2 < (current_index : ℚ))
  else
    decide ((current_index : ℚ) < avg_index / 2)

/-- The non-face temporal filter of `04_score_masked.py` lines 341-360,
returning `true` when the candidate is to be rejected (`continue`): reject
when the manifest entry is zero, when exactly five same-source acceptances
exist and the spread test fails, or when six or more exist. -/
def temporalReject (video_manifest : String → ℕ) (s : SelState)
    (item : Item) : Bool :=
  if video_manifest item.source_video = 0 then true
  else if (s.seen_source_frame_indices item.source_video).length = 5 then
    !temporalTestPassed (s.seen_source_frame_indices item.source_video)
      (video_manifest item.source_video) item.frame_index
  else if 6 ≤ (s.seen_source_frame_indices item.source_video).length then true
  else false

/-- The accept step (`04_score_masked.py` lines 362-366): append the item,
record its hash globally and per source, and (for non-face categories) its
frame index per source. -/
def acceptItem (is_face_category : Bool) (s : SelState) (item : Item) :
    SelState :=
  { top_n_items := s.top_n_items ++ [item]
    seen_global_hashes := s.seen_global_hashes ++ [item.phash]
    seen_source_hashes := fun v =>
      if v = item.source_video then s.seen_source_hashes v ++ [item.phash]
      else s.seen_source_hashes v
    seen_source_frame_indices :=
      if is_face_category then s.seen_source_frame_indices
      else fun v =>
        if v = item.source_video then
          s.seen_source_frame_indices v ++ [item.frame_index]
        else s.seen_source_frame_indices v }

/-- One iteration of the selection loop of `04_score_masked.py`
(lines 320-366): stop once `TOP_N_IMAGES` are held, skip score-0 (gated)
candidates, then the global hash test, the intra-source hash test, the
temporal filter (non-face only), and finally accept. -/
def selStep (is_face_category : Bool) (video_manifest : String → ℕ)
    (s : SelState) (item : Item) : SelState :=
  if TOP_N_IMAGES ≤ s.top_n_items.length then s
  else if item.final_score = 0 then s
  else if s.seen_global_hashes.any
      (fun h => decide (hashDist item.phash h < GLOBAL_HASH_THRESHOLD)) then s
  else if (s.seen_source_hashes item.source_video).any
      (fun h => decide (hashDist item.phash h < INTRA_SOURCE_HASH_THRESHOLD)) then s
  else if !is_face_category && temporalReject video_manifest s item then s
  else acceptItem is_face_category s item

/-- The whole selection pass over the score-sorted candidate list. -/
def selectTopN (is_face_category : Bool) (video_manifest : String → ℕ)
    (items : List Item) : SelState :=
  items.foldl (selStep is_face_category video_manifest) initSelState

/-- The pairwise hash-separation property of C1. -/
def pairSeparated (a b : Item) : Prop :=
  (if a.source_video = b.source_video then INTRA_SOURCE_HASH_THRESHOLD
    else GLOBAL_HASH_THRESHOLD) ≤ hashDist a.phash b.phash

/-- The selector invariant: accepted items are pairwise hash-separated, and
every accepted item's hash is recorded globally and under its source. -/
def SelInv (s : SelState) : Prop :=
  s.top_n_items.Pairwise pairSeparated ∧
  ∀ a ∈ s.top_n_items,
    a.phash ∈ s.seen_global_hashes ∧
    a.phash ∈ s.seen_source_hashes a.source_video

/-- The source-count invariant for non-face categories: the number of accepted
items from each source equals the length of its recorded frame-index list, and
that length never exceeds six. -/
def SrcInv (s : SelState) : Prop :=
  ∀ v : String,
    (s.top_n_items.filter (fun x => decide (x.source_video = v))).length
        = (s.seen_source_frame_indices v).length ∧
    (s.seen_source_frame_indices v).length ≤ 6

structure ImageMeasures where
  contour_count : ℕ
  raw_sharpness : ℚ
  raw_pose : ℚ
  raw_brightness : ℚ
deriving DecidableEq

/-- `get_mask_score` (lines 106-128): 0.0 when the large-contour count
exceeds `MAX_CONTOUR_COUNT` or is zero, else 1.0. The Python function also
returns a status string, unused here. -/
def get_mask_score (contour_count : ℕ) : ℚ :=
  if MAX_CONTOUR_COUNT < contour_count then 0
  else if contour_count = 0 then 0
  else 1

/-- One element of `all_category_scores`: the score dictionary recorded for a
candidate. `final_score := none` models the key being absent after Pass 1. -/
structure ScoreEntry where
  raw_brightness : ℚ
  raw_sharpness : ℚ
  raw_pose : ℚ
  raw_mask_score : ℚ
  S_sharpness : Option ℚ
  final_score : Option ℚ
deriving DecidableEq

/-- Pass 1 (lines 224-278): the mask-QA gate, then the sharpness gate; a
gated candidate records `final_score = 0.0` immediately, a surviving one
records its raw metrics and no final score yet. -/
def pass1 (img : ImageMeasures) : ScoreEntry :=
  if get_mask_score img.contour_count = 0 then
    { raw_brightness := 0, raw_sharpness := 0, raw_pose := 0,
      raw_mask_score := 0, S_sharpness := none, final_score := some 0 }
  else if img.raw_sharpness < MIN_SHARPNESS_THRESHOLD then
    { raw_brightness := 0, raw_sharpness := img.raw_sharpness, raw_pose := 0,
      raw_mask_score := 1, S_sharpness := none, final_score := some 0 }
  else
    { raw_brightness := img.raw_brightness,
      raw_sharpness := img.raw_sharpness, raw_pose := img.raw_pose,
      raw_mask_score := 1, S_sharpness := none, final_score := none }

/-- `item.get('final_score', 1.0)`. -/
def getFinal (e : ScoreEntry) : ℚ := e.final_score.getD 1

/-- Python `max` over a list (0 on the empty list, which the script never
feeds it: a category with no surviving candidate is skipped). -/
def pyMax : List ℚ → ℚ
  | [] => 0
  | x :: xs => xs.foldl max x

/-- `valid_scores` (line 286). -/
def validScores (entries : List ScoreEntry) : List ScoreEntry :=
  entries.filter (fun e => decide (getFinal e ≠ 0))

/-- Lines 292-293: `max_sharpness` with the zero fallback, on an arbitrary
value list. -/
def normDenom (values : List ℚ) : ℚ :=
  if pyMax values = 0 then 1 else pyMax values

/-- The normalization denominator computed from the Pass-1 entries. -/
def maxSharpnessOf (entries : List ScoreEntry) : ℚ :=
  normDenom ((validScores entries).map (fun e => e.raw_sharpness))

/-- Lines 295-308: Pass 2 skips entries whose final score is already 0.0 and
otherwise records `S_sharpness` and the weighted final score. -/
def normalizeEntry (max_sharpness : ℚ) (e : ScoreEntry) : ScoreEntry :=
  if getFinal e = 0 then e
  else
    { e with
      S_sharpness := some (e.raw_sharpness / max_sharpness),
      final_score := some (e.raw_pose * WEIGHT_POSE +
        (e.raw_sharpness / max_sharpness) * WEIGHT_SHARPNESS +
        e.raw_brightness * WEIGHT_BRIGHTNESS) }

/-- The sharpness-normalization of the surviving raw values themselves
(the `raw / max_sharpness` of line 299 across a category). -/
def normalizeSharpness (values : List ℚ) : List ℚ :=
  values.map (fun v => v / normDenom values)

/-- The per-category scoring pipeline: Pass 1 on each image, then Pass 2 with
the category-wide denominator. -/
def scorePipeline (imgs : List ImageMeasures) : List ScoreEntry :=
  (imgs.map pass1).map (normalizeEntry (maxSharpnessOf (imgs.map pass1)))

/-- The pipeline's entry for one image of the category. -/
def pipelineEntry (imgs : List ImageMeasures) (img : ImageMeasures) :
    ScoreEntry :=
  normalizeEntry (maxSharpnessOf (imgs.map pass1)) (pass1 img)

/-- The Quality-Gate rejection condition as the spec states it: large-region
count zero or above three, or raw sharpness below the 50.0 floor. -/
abbrev gateRejects (img : ImageMeasures) : Prop :=
  img.contour_count = 0 ∨ MAX_CONTOUR_COUNT < img.contour_count ∨
    img.raw_sharpness < MIN_SHARPNESS_THRESHOLD

/-- Line 310: `all_category_scores.sort(key=lambda x: x["final_score"],
reverse=True)`. Python's sort is a stable sort; it is modelled by `mergeSort`
under the total preorder "final score at least as large". -/
def sortByScore (l : List Item) : List Item :=
  l.mergeSort (fun a b => decide (b.final_score ≤ a.final_score))

/-- The separator `"_frame_"` of `filename.split("_frame_")`. -/
def SEP : List Char := "_frame_".toList

/-- Python `filename.split("_frame_")`: split at each non-overlapping
occurrence of the separator, scanning left to right. -/
def pySplitFrame : List Char → List (List Char)
  | [] => [[]]
  | c :: rest =>
    if SEP.isPrefixOf (c :: rest) then
      [] :: pySplitFrame (rest.drop (SEP.length - 1))
    else
      match pySplitFrame rest with
      | [] => [[c]]
      | x :: xs => (c :: x) :: xs
termination_by s => s.length
decreasing_by
  all_goals simp only [List.length_drop, List.length_cons]
  all_goals omega

/-- `get_source_video` (lines 57-61): `filename.split("_frame_")[0]`, with an
`"unknown_source"` fallback for the `IndexError` handler. -/
def get_source_video (filename : List Char) : List Char :=
  match pySplitFrame filename with
  | [] => "unknown_source".toList
  | x :: _ => x

/-- The spec-side description of `get_source_video`: the characters before
the first occurrence of `"_frame_"` (the whole string when absent). -/
def takeUntilSep : List Char → List Char
  | [] => []
  | c :: rest =>
    if SEP.isPrefixOf (c :: rest) then [] else c :: takeUntilSep rest

/-- The extension alternation `(jpg|jpeg|png|webp)`. -/
def EXT_LIST : List (List Char) :=
  ["jpg".toList, "jpeg".toList, "png".toList, "webp".toList]

/-- Case-insensitive equality of character lists (`re.IGNORECASE`). -/
def lowerEq (a b : List Char) : Bool :=
  decide (a.map Char.toLower = b.map Char.toLower)

/-- Case-insensitive prefix test. -/
def ciPrefixOf (pat s : List Char) : Bool :=
  (pat.map Char.toLower).isPrefixOf (s.map Char.toLower)

/-- The digit run `(\d+)` following `"_frame_"` (greedy; since a digit never
equals the following literal dot, the greedy run is exact). -/
def digitsOf (s : List Char) : List Char :=
  (s.drop SEP.length).takeWhile Char.isDigit

/-- What remains after the digit run. -/
def afterDigits (s : List Char) : List Char :=
  (s.drop SEP.length).drop (digitsOf s).length

/-- An attempted match of `_frame_(\d+)\.(jpg|jpeg|png|webp)$` (IGNORECASE)
starting at the head of `s` and, per the `$` anchor, consuming all of `s`;
returns the digit group. -/
def matchFrameAt (s : List Char) : Option (List Char) :=
  if ciPrefixOf SEP s then
    if digitsOf s = [] then none
    else
      match afterDigits s with
      | '.' :: extPart =>
        if EXT_LIST.any (fun e => lowerEq extPart e) then some (digitsOf s)
        else none
      | _ => none
  else none

/-- `re.search`: try each start position from the left. -/
def searchFrameMatch : List Char → Option (List Char)
  | [] => none
  | c :: rest =>
    match matchFrameAt (c :: rest) with
    | some d => some d
    | none => searchFrameMatch rest

/-- `int(match.group(1))`. -/
def digitsVal (ds : List Char) : ℕ :=
  ds.foldl (fun n c => 10 * n + (c.toNat - ('0').toNat)) 0

/-- `get_frame_index` (lines 63-67): the parsed digit group, or 0 when the
regex does not match. -/
def get_frame_index (filename : List Char) : ℕ :=
  match searchFrameMatch filename with
  | some ds => digitsVal ds
  | none => 0

/-- The filename shape `..._frame_<digits>.<jpg|jpeg|png|webp>`
(case-insensitive) that `get_frame_index` parses. -/
def EndsWithFrameSuffix (s : List Char) : Prop :=
  ∃ (pre mid ds ext : List Char),
    s = pre ++ mid ++ ds ++ ('.' :: ext) ∧
    lowerEq mid SEP = true ∧ ds ≠ [] ∧
    (∀ c ∈ ds, c.isDigit = true) ∧
    EXT_LIST.any (fun e => lowerEq ext e) = true

/-! ## Theorems -/

theorem hashDist_comm (a b : List Bool) : hashDist a b = hashDist b a := by
  unfold hashDist
  rw [List.zipWith_comm_of_comm]
  intro x y
  cases x <;> cases y <;> rfl

/-- Case analysis of one selector step: either the candidate is rejected and
the state is unchanged, or it is accepted and every guard held. -/
theorem selStep_cases (f : Bool) (m : String → ℕ) (s : SelState) (it : Item) :
    selStep f m s it = s ∨
    (selStep f m s it = acceptItem f s it ∧
      s.top_n_items.length < TOP_N_IMAGES ∧
      it.final_score ≠ 0 ∧
      (∀ h ∈ s.seen_global_hashes, GLOBAL_HASH_THRESHOLD ≤ hashDist it.phash h) ∧
      (∀ h ∈ s.seen_source_hashes it.source_video,
        INTRA_SOURCE_HASH_THRESHOLD ≤ hashDist it.phash h) ∧
      (f = false → temporalReject m s it = false)) := by
  rw [selStep]
  split
  · exact Or.inl rfl
  next h1 =>
    split
    · exact Or.inl rfl
    next h2 =>
      split
      · exact Or.inl rfl
      next h3 =>
        split
        · exact Or.inl rfl
        next h4 =>
          split
          · exact Or.inl rfl
          next h5 =>
            refine Or.inr ⟨rfl, Nat.lt_of_not_le h1, h2, ?_, ?_, ?_⟩
            · intro x hx
              simp only [List.any_eq_true, decide_eq_true_eq, not_exists,
                not_and, not_lt] at h3
              exact h3 x hx
            · intro x hx
              simp only [List.any_eq_true, decide_eq_true_eq, not_exists,
                not_and, not_lt] at h4
              exact h4 x hx
            · intro hf
              subst hf
              cases htr : temporalReject m s it with
              | false => rfl
              | true => exact absurd (by simp [htr]) h5

theorem selInv_init : SelInv initSelState := by
  constructor
  · exact List.Pairwise.nil
  · intro a ha
    exact absurd ha (List.not_mem_nil a)

theorem selInv_accept (f : Bool) (s : SelState) (it : Item)
    (hglob : ∀ h ∈ s.seen_global_hashes,
      GLOBAL_HASH_THRESHOLD ≤ hashDist it.phash h)
    (hsrc : ∀ h ∈ s.seen_source_hashes it.source_video,
      INTRA_SOURCE_HASH_THRESHOLD ≤ hashDist it.phash h)
    (hinv : SelInv s) : SelInv (acceptItem f s it) := by
  obtain ⟨hpw, hmem⟩ := hinv
  constructor
  · show (s.top_n_items ++ [it]).Pairwise pairSeparated
    rw [List.pairwise_append]
    refine ⟨hpw, List.pairwise_singleton _ _, ?_⟩
    intro a ha b hb
    rw [List.mem_singleton] at hb
    rw [hb]
    rw [pairSeparated]
    by_cases hsv : a.source_video = it.source_video
    · rw [if_pos hsv]
      have h1 : a.phash ∈ s.seen_source_hashes it.source_video := by
        rw [← hsv]
        exact (hmem a ha).2
      have h2 := hsrc a.phash h1
      rw [hashDist_comm] at h2
      exact h2
    · rw [if_neg hsv]
      have h2 := hglob a.phash (hmem a ha).1
      rw [hashDist_comm] at h2
      exact h2
  · intro a ha
    have ha2 : a ∈ s.top_n_items ++ [it] := ha
    rw [List.mem_append, List.mem_singleton] at ha2
    rcases ha2 with haold | hanew
    · refine ⟨?_, ?_⟩
      · show a.phash ∈ s.seen_global_hashes ++ [it.phash]
        exact List.mem_append_left _ (hmem a haold).1
      · show a.phash ∈
          (if a.source_video = it.source_video
            then s.seen_source_hashes a.source_video ++ [it.phash]
            else s.seen_source_hashes a.source_video)
        by_cases hsv : a.source_video = it.source_video
        · rw [if_pos hsv]
          exact List.mem_append_left _ (hmem a haold).2
        · rw [if_neg hsv]
          exact (hmem a haold).2
    · subst hanew
      refine ⟨?_, ?_⟩
      · show a.phash ∈ s.seen_global_hashes ++ [a.phash]
        exact List.mem_append_right _ (List.mem_singleton.mpr rfl)
      · show a.phash ∈
          (if a.source_video = a.source_video
            then s.seen_source_hashes a.source_video ++ [a.phash]
            else s.seen_source_hashes a.source_video)
        rw [if_pos rfl]
        exact List.mem_append_right _ (List.mem_singleton.mpr rfl)

theorem selInv_step (f : Bool) (m : String → ℕ) (s : SelState) (it : Item)
    (h : SelInv s) : SelInv (selStep f m s it) := by
  rcases selStep_cases f m s it with heq | ⟨heq, -, -, hglob, hsrc, -⟩
  · rw [heq]
    exact h
  · rw [heq]
    exact selInv_accept f s it hglob hsrc h

theorem selInv_fold (f : Bool) (m : String → ℕ) (items : List Item) :
    ∀ s : SelState, SelInv s →
      SelInv (List.foldl (selStep f m) s items) := by
  induction items with
  | nil => exact fun s h => h
  | cons it rest ih => exact fun s h => ih _ (selInv_step f m s it h)

/-- Claim C1: for every pair of distinct ACCEPTED candidates in the same
category, the Hamming distance between their perceptual hashes is at least
`GLOBAL_HASH_THRESHOLD` (3) when they come from different source videos and at
least `INTRA_SOURCE_HASH_THRESHOLD` (10) when they come from the same source
video. The distance is symmetric, so the `Pairwise` statement covers every
distinct pair in both orders, and it holds of the selection state produced by
the fold of accept steps over any input. -/
theorem accepted_pairs_hash_separated (f : Bool) (m : String → ℕ)
    (items : List Item) :
    (∀ a b : List Bool, hashDist a b = hashDist b a) ∧
    ((selectTopN f m items).top_n_items).Pairwise (fun a b =>
      (if a.source_video = b.source_video then INTRA_SOURCE_HASH_THRESHOLD
        else GLOBAL_HASH_THRESHOLD) ≤ hashDist a.phash b.phash) :=
  ⟨hashDist_comm, (selInv_fold f m items initSelState selInv_init).1⟩

theorem selLen_step (f : Bool) (m : String → ℕ) (s : SelState) (it : Item)
    (h : s.top_n_items.length ≤ TOP_N_IMAGES) :
    (selStep f m s it).top_n_items.length ≤ TOP_N_IMAGES := by
  rcases selStep_cases f m s it with heq | ⟨heq, hlt, -⟩
  · rw [heq]
    exact h
  · rw [heq]
    show (s.top_n_items ++ [it]).length ≤ TOP_N_IMAGES
    rw [List.length_append, List.length_singleton]
    omega

theorem selLen_fold (f : Bool) (m : String → ℕ) (items : List Item) :
    ∀ s : SelState, s.top_n_items.length ≤ TOP_N_IMAGES →
      (List.foldl (selStep f m) s items).top_n_items.length ≤ TOP_N_IMAGES := by
  induction items with
  | nil => exact fun s h => h
  | cons it rest ih => exact fun s h => ih _ (selLen_step f m s it h)

/-- Claim C6: the SelectionSet holds at most `TOP_N_IMAGES` entries at every
point during and after the selection pass (the state after any prefix of the
input is `selectTopN` of that prefix, and the bound holds for every input
list), and the selector stops accepting as soon as the bound is reached: a
step from a full state leaves the state unchanged. -/
theorem selection_set_bounded (f : Bool) (m : String → ℕ) (items : List Item) :
    ((selectTopN f m items).top_n_items.length ≤ TOP_N_IMAGES) ∧
    ∀ (s : SelState) (it : Item), TOP_N_IMAGES ≤ s.top_n_items.length →
      selStep f m s it = s := by
  constructor
  · exact selLen_fold f m items initSelState (Nat.zero_le _)
  · intro s it h
    rw [selStep, if_pos h]

/-- Witness for C6 at a concrete full state. -/
theorem selection_set_bounded_witness :
    selStep false (fun _ => 0)
      { top_n_items := List.replicate 100 ⟨[], "a", 0, 0⟩
        seen_global_hashes := []
        seen_source_hashes := fun _ => []
        seen_source_frame_indices := fun _ => [] } ⟨[], "b", 0, 1⟩ =
      { top_n_items := List.replicate 100 ⟨[], "a", 0, 0⟩
        seen_global_hashes := []
        seen_source_hashes := fun _ => []
        seen_source_frame_indices := fun _ => [] } :=
  (selection_set_bounded false (fun _ => 0) []).2 _ _ (by decide)

theorem srcInv_init : SrcInv initSelState := by
  intro v
  exact ⟨rfl, Nat.zero_le _⟩

theorem srcInv_step (m : String → ℕ) (s : SelState) (it : Item)
    (h : SrcInv s) : SrcInv (selStep false m s it) := by
  rcases selStep_cases false m s it with heq | ⟨heq, -, -, -, -, htr⟩
  · rw [heq]
    exact h
  · rw [heq]
    have htr2 := htr rfl
    have hcount : (s.seen_source_frame_indices it.source_video).length ≤ 5 := by
      rw [temporalReject] at htr2
      by_cases h0 : m it.source_video = 0
      · rw [if_pos h0] at htr2
        exact absurd htr2 (by simp)
      · rw [if_neg h0] at htr2
        by_cases h5 : (s.seen_source_frame_indices it.source_video).length = 5
        · omega
        · rw [if_neg h5] at htr2
          by_cases h6 : 6 ≤ (s.seen_source_frame_indices it.source_video).length
          · rw [if_pos h6] at htr2
            exact absurd htr2 (by simp)
          · omega
    intro v
    obtain ⟨hev, hlev⟩ := h v
    have htop : (acceptItem false s it).top_n_items = s.top_n_items ++ [it] := rfl
    have hidx : (acceptItem false s it).seen_source_frame_indices v =
        (if v = it.source_video
          then s.seen_source_frame_indices v ++ [it.frame_index]
          else s.seen_source_frame_indices v) := rfl
    rw [htop, hidx]
    by_cases hv : v = it.source_video
    · rw [if_pos hv]
      subst hv
      constructor
      · have hfit : List.filter
            (fun x => decide (x.source_video = it.source_video)) [it] = [it] := by
          simp
        rw [List.filter_append, hfit, List.length_append, List.length_append,
          hev, List.length_singleton, List.length_singleton]
      · rw [List.length_append, List.length_singleton]
        omega
    · rw [if_neg hv]
      have hne : (decide (it.source_video = v)) = false := by
        simp only [decide_eq_false_iff_not]
        exact fun hh => hv hh.symm
      constructor
      · have hfit : List.filter
            (fun x => decide (x.source_video = v)) [it] = [] := by
          simp [hne]
        rw [List.filter_append, hfit, List.append_nil]
        exact hev
      · exact hlev

theorem srcInv_fold (m : String → ℕ) (items : List Item) :
    ∀ s : SelState, SrcInv s →
      SrcInv (List.foldl (selStep false m) s items) := by
  induction items with
  | nil => exact fun s h => h
  | cons it rest ih => exact fun s h => ih _ (srcInv_step m s it h)

/-- Claim C5: in a non-face category no source video ever contributes more
than six accepted candidates, and once six frame indices are recorded for a
source, a step on any further candidate from that source leaves the selection
state unchanged — rejection is unconditional, independent of score, frame
index or hash distances. -/
theorem source_cap_six (m : String → ℕ) (items : List Item) :
    (∀ v : String,
      (((selectTopN false m items).top_n_items.filter
        (fun x => decide (x.source_video = v))).length ≤ 6)) ∧
    ∀ (s : SelState) (it : Item),
      6 ≤ (s.seen_source_frame_indices it.source_video).length →
      selStep false m s it = s := by
  constructor
  · intro v
    obtain ⟨hev, hlev⟩ := srcInv_fold m items initSelState srcInv_init v
    exact hev.trans_le hlev
  · intro s it h
    have htr : temporalReject m s it = true := by
      rw [temporalReject]
      by_cases h0 : m it.source_video = 0
      · rw [if_pos h0]
      · rw [if_neg h0, if_neg (by omega), if_pos h]
    rw [selStep]
    split
    · rfl
    split
    · rfl
    split
    · rfl
    split
    · rfl
    rw [if_pos (show (!false && temporalReject m s it) = true by simp [htr])]

/-- Witness for C5 at a concrete state holding six indices for the source. -/
theorem source_cap_six_witness :
    selStep false (fun _ => 100)
      { top_n_items := []
        seen_global_hashes := []
        seen_source_hashes := fun _ => []
        seen_source_frame_indices := fun _ => [0, 1, 2, 3, 4, 5] }
      ⟨[true], "a", 50, 1⟩ =
      { top_n_items := []
        seen_global_hashes := []
        seen_source_hashes := fun _ => []
        seen_source_frame_indices := fun _ => [0, 1, 2, 3, 4, 5] } :=
  (source_cap_six (fun _ => 100) []).2 _ _ (by decide)

/-- Counterexample to claim C3 as stated: in `04_score_masked.py` the check
`if total_frames == 0: continue` (line 346) runs at every `k`, not only at
`k == 5`. A candidate that passes the score sentinel and both hash tests with
`k = 0 < 5` is nevertheless rejected when the manifest entry for its source is
zero: with manifest constantly 0 the selection comes out empty, while the same
single-candidate input with manifest 1 is accepted, so the manifest lookup was
the only blocker. -/
theorem temporal_manifest_zero_counterexample :
    (selectTopN false (fun _ => 0)
      [⟨[true], "a", 1, 1⟩]).top_n_items = [] ∧
    (selectTopN false (fun _ => 1)
      [⟨[true], "a", 1, 1⟩]).top_n_items = [⟨[true], "a", 1, 1⟩] :=
  ⟨by decide, by decide⟩

/-- Claim C3 (amended): for a candidate in a non-face category that passes the
score-sentinel, global-hash and intra-source-hash tests, if fewer than 5
candidates from its source video have been accepted AND the manifest entry for
its source video is nonzero, the temporal stage imposes no restriction and the
candidate proceeds to acceptance. (As stated the claim is false: a zero or
absent manifest entry rejects the candidate at any `k` in
`04_score_masked.py`; `03_score_and_rank_v3.py` consults the manifest only at
`k == 5`.) -/
theorem temporal_no_restriction_below_five (m : String → ℕ) (s : SelState)
    (it : Item)
    (hN : s.top_n_items.length < TOP_N_IMAGES)
    (hscore : it.final_score ≠ 0)
    (hglobal : s.seen_global_hashes.any
      (fun h => decide (hashDist it.phash h < GLOBAL_HASH_THRESHOLD)) = false)
    (hsource : (s.seen_source_hashes it.source_video).any
      (fun h => decide (hashDist it.phash h < INTRA_SOURCE_HASH_THRESHOLD))
        = false)
    (hk : (s.seen_source_frame_indices it.source_video).length < 5)
    (hm : m it.source_video ≠ 0) :
    selStep false m s it = acceptItem false s it := by
  have htr : temporalReject m s it = false := by
    rw [temporalReject, if_neg hm, if_neg (by omega), if_neg (by omega)]
  rw [selStep, if_neg (by omega), if_neg hscore,
    if_neg (by rw [hglobal]; exact Bool.false_ne_true),
    if_neg (by rw [hsource]; exact Bool.false_ne_true),
    if_neg (by rw [htr]; simp)]

/-- Witness for the amended C3 at a concrete fresh state. -/
theorem temporal_no_restriction_below_five_witness :
    selStep false (fun _ => 1) initSelState ⟨[true], "a", 1, 1⟩ =
      acceptItem false initSelState ⟨[true], "a", 1, 1⟩ :=
  temporal_no_restriction_below_five (fun _ => 1) initSelState
    ⟨[true], "a", 1, 1⟩ (by decide) (by decide) (by decide) (by decide)
    (by decide) (by decide)

theorem any_eq_of_perm {l1 l2 : List (List Bool)} (p : List Bool → Bool)
    (h : l1.Perm l2) : l1.any p = l2.any p := by
  cases h1 : l1.any p with
  | true =>
    rw [List.any_eq_true] at h1
    obtain ⟨x, hx, hpx⟩ := h1
    exact (List.any_eq_true.mpr ⟨x, h.mem_iff.mp hx, hpx⟩).symm
  | false =>
    cases h2 : l2.any p with
    | false => rfl
    | true =>
      rw [List.any_eq_true] at h2
      obtain ⟨x, hx, hpx⟩ := h2
      have : l1.any p = true :=
        List.any_eq_true.mpr ⟨x, h.mem_iff.mpr hx, hpx⟩
      rw [h1] at this
      exact absurd this Bool.false_ne_true

/-- Claim C9: the Curation Selector is deterministic. Two runs on identical
inputs (same candidate order, same manifest) produce identical SelectionSets,
element for element; moreover the only internally unordered structure, the
`seen_global_hashes` Python set iterated by the global near-duplicate test,
cannot affect outcomes: the test's result is invariant under any permutation
of the recorded hashes. -/
theorem selector_deterministic (f : Bool) (m1 m2 : String → ℕ)
    (xs ys : List Item) (hm : ∀ v, m1 v = m2 v) (hxy : xs = ys) :
    ((selectTopN f m1 xs).top_n_items = (selectTopN f m2 ys).top_n_items) ∧
    ∀ (hs1 hs2 : List (List Bool)) (c : List Bool) (t : ℕ), hs1.Perm hs2 →
      hs1.any (fun h => decide (hashDist c h < t))
        = hs2.any (fun h => decide (hashDist c h < t)) := by
  constructor
  · rw [funext hm, hxy]
  · intro hs1 hs2 c t hperm
    exact any_eq_of_perm _ hperm

/-- Witness for C9 on a concrete input. -/
theorem selector_deterministic_witness :
    (selectTopN false (fun _ => 1) [⟨[true], "a", 1, 1⟩]).top_n_items =
      (selectTopN false (fun _ => 1) [⟨[true], "a", 1, 1⟩]).top_n_items :=
  (selector_deterministic false (fun _ => 1) (fun _ => 1)
    [⟨[true], "a", 1, 1⟩] [⟨[true], "a", 1, 1⟩] (fun _ => rfl) rfl).1

/-- Claim C4: evaluated with exactly five same-source acceptances recorded,
the temporal test passes iff either the accepted cluster skews early
(`avg_index < total_frames/2`) and the candidate sits past
`(avg_index + total_frames)/2`, or the cluster skews late and the candidate
sits before `avg_index/2`, where `avg_index` is the mean frame index of the
five accepted (`sum/5`). In the concrete scenario `total_frames = 100`,
accepted indices averaging 20, the sixth same-source acceptance requires
`frame_index > 60`, and a candidate with `frame_index = 30` fails. -/
theorem temporal_test_iff :
    (∀ (idxs : List ℕ) (tf fi : ℕ), idxs.length = 5 →
      (temporalTestPassed idxs tf fi = true ↔
        (((idxs.sum : ℚ) / 5 < (tf : ℚ) / 2 ∧
            ((idxs.sum : ℚ) / 5 + (tf : ℚ)) / 2 < (fi : ℚ)) ∨
          ((tf : ℚ) / 2 ≤ (idxs.sum : ℚ) / 5 ∧
            (fi : ℚ) < ((idxs.sum : ℚ) / 5) / 2)))) ∧
    (∀ fi : ℕ,
      temporalTestPassed [10, 15, 20, 25, 30] 100 fi = true ↔ 60 < fi) ∧
    temporalTestPassed [10, 15, 20, 25, 30] 100 30 = false := by
  have h2 : ∀ fi : ℕ,
      temporalTestPassed [10, 15, 20, 25, 30] 100 fi = true ↔ 60 < fi := by
    intro fi
    have h20 : (([10, 15, 20, 25, 30] : List ℕ).sum : ℚ) / 5 = 20 := by
      norm_num
    simp only [temporalTestPassed, h20]
    rw [if_pos (by norm_num)]
    rw [decide_eq_true_eq]
    constructor
    · intro h
      have h60 : (60 : ℚ) < (fi : ℚ) := by linarith
      exact_mod_cast h60
    · intro h
      have h60 : (60 : ℚ) < (fi : ℚ) := by exact_mod_cast h
      linarith
  refine ⟨?_, h2, ?_⟩
  · intro idxs tf fi hlen
    simp only [temporalTestPassed]
    by_cases hc : (idxs.sum : ℚ) / 5 < (tf : ℚ) / 2
    · rw [if_pos hc, decide_eq_true_eq]
      constructor
      · intro hgt
        exact Or.inl ⟨hc, hgt⟩
      · rintro (⟨-, hgt⟩ | ⟨hge, -⟩)
        · exact hgt
        · exact absurd hc (not_lt.mpr hge)
    · rw [if_neg hc, decide_eq_true_eq]
      constructor
      · intro hlt
        exact Or.inr ⟨not_lt.mp hc, hlt⟩
      · rintro (⟨hlt2, -⟩ | ⟨-, hlt2⟩)
        · exact absurd hlt2 hc
        · exact hlt2
  · cases h : temporalTestPassed [10, 15, 20, 25, 30] 100 30 with
    | false => rfl
    | true => exact absurd ((h2 30).mp h) (by norm_num)

/-- Witness for C4 at a concrete index list. -/
theorem temporal_test_iff_witness :
    temporalTestPassed [10, 15, 20, 25, 30] 100 70 = true ↔
      (((([10, 15, 20, 25, 30] : List ℕ).sum : ℚ) / 5 < ((100 : ℕ) : ℚ) / 2 ∧
          ((([10, 15, 20, 25, 30] : List ℕ).sum : ℚ) / 5 + ((100 : ℕ) : ℚ)) / 2
            < ((70 : ℕ) : ℚ)) ∨
        (((100 : ℕ) : ℚ) / 2 ≤ ((([10, 15, 20, 25, 30] : List ℕ).sum : ℚ)) / 5 ∧
          ((70 : ℕ) : ℚ) < ((([10, 15, 20, 25, 30] : List ℕ).sum : ℚ) / 5) / 2)) :=
  temporal_test_iff.1 [10, 15, 20, 25, 30] 100 70 (by decide)

theorem le_foldl_max (l : List ℚ) : ∀ a : ℚ, a ≤ l.foldl max a := by
  induction l with
  | nil => exact fun a => le_refl a
  | cons x xs ih => exact fun a => le_trans (le_max_left a x) (ih (max a x))

theorem mem_le_foldl_max (l : List ℚ) :
    ∀ (a x : ℚ), x ∈ l → x ≤ l.foldl max a := by
  induction l with
  | nil => exact fun a x hx => absurd hx (List.not_mem_nil x)
  | cons y ys ih =>
    intro a x hx
    rcases List.mem_cons.mp hx with h | h
    · rw [h]
      exact le_trans (le_max_right a y) (le_foldl_max ys (max a y))
    · exact ih (max a y) x h

theorem le_pyMax_of_mem {l : List ℚ} {x : ℚ} (h : x ∈ l) : x ≤ pyMax l := by
  cases l with
  | nil => exact absurd h (List.not_mem_nil x)
  | cons y ys =>
    rcases List.mem_cons.mp h with h1 | h1
    · rw [h1]
      exact le_foldl_max ys y
    · exact mem_le_foldl_max ys y x h1

theorem foldl_max_mem (l : List ℚ) : ∀ a : ℚ, l.foldl max a ∈ a :: l := by
  induction l with
  | nil => exact fun a => List.mem_singleton.mpr rfl
  | cons x xs ih =>
    intro a
    rw [List.foldl_cons]
    rcases List.mem_cons.mp (ih (max a x)) with h1 | h1
    · rcases max_choice a x with h2 | h2
      · rw [h1, h2]
        exact List.mem_cons_self a (x :: xs)
      · rw [h1, h2]
        exact List.mem_cons_of_mem a (List.mem_cons_self x xs)
    · exact List.mem_cons_of_mem a (List.mem_cons_of_mem x h1)

theorem pyMax_mem {l : List ℚ} (h : l ≠ []) : pyMax l ∈ l := by
  cases l with
  | nil => exact absurd rfl h
  | cons x xs => exact foldl_max_mem xs x

/-- Claim C7: for a nonempty list of surviving raw sharpness values (variance
values, hence nonnegative), the maximum normalized sharpness equals 1 unless
every surviving value is 0, in which case the denominator falls back to 1 and
every normalized value is 0. -/
theorem normalized_sharpness_max (values : List ℚ) (hne : values ≠ [])
    (hnn : ∀ v ∈ values, 0 ≤ v) :
    ((∃ v ∈ values, v ≠ 0) → pyMax (normalizeSharpness values) = 1) ∧
    ((∀ v ∈ values, v = 0) →
      normDenom values = 1 ∧ ∀ x ∈ normalizeSharpness values, x = 0) := by
  constructor
  · rintro ⟨v, hv, hvne⟩
    have hvpos : 0 < v := lt_of_le_of_ne (hnn v hv) (Ne.symm hvne)
    have hM : 0 < pyMax values := lt_of_lt_of_le hvpos (le_pyMax_of_mem hv)
    have hden : normDenom values = pyMax values := if_neg (ne_of_gt hM)
    rw [normalizeSharpness, hden]
    apply le_antisymm
    · have hmapne : values.map (fun v => v / pyMax values) ≠ [] := by
        intro hc
        exact hne (List.map_eq_nil_iff.mp hc)
      obtain ⟨w, hw, hwe⟩ := List.mem_map.mp (pyMax_mem hmapne)
      rw [← hwe]
      exact (div_le_one hM).mpr (le_pyMax_of_mem hw)
    · have h1 : (1 : ℚ) ∈ values.map (fun v => v / pyMax values) :=
        List.mem_map.mpr ⟨pyMax values, pyMax_mem hne, div_self (ne_of_gt hM)⟩
      exact le_pyMax_of_mem h1
  · intro hall
    have hden : normDenom values = 1 := if_pos (hall _ (pyMax_mem hne))
    refine ⟨hden, ?_⟩
    intro x hx
    rw [normalizeSharpness] at hx
    obtain ⟨w, hw, hwe⟩ := List.mem_map.mp hx
    rw [← hwe, hden, div_one]
    exact hall w hw

/-- Witness for C7 on concrete surviving sharpness values. -/
theorem normalized_sharpness_max_witness :
    pyMax (normalizeSharpness [50, 100]) = 1 :=
  (normalized_sharpness_max [50, 100] (by decide) (by decide)).1
    ⟨100, by decide, by decide⟩

theorem mask_score_zero_iff (c : ℕ) :
    get_mask_score c = 0 ↔ (c = 0 ∨ MAX_CONTOUR_COUNT < c) := by
  rw [get_mask_score]
  by_cases h1 : MAX_CONTOUR_COUNT < c
  · rw [if_pos h1]
    simp [h1]
  · rw [if_neg h1]
    by_cases h2 : c = 0
    · rw [if_pos h2]
      simp [h2]
    · rw [if_neg h2]
      simp [h1, h2]

theorem pass1_of_gated (img : ImageMeasures) (h : gateRejects img) :
    (pass1 img).final_score = some 0 := by
  rcases h with h | h | h
  · rw [pass1, if_pos ((mask_score_zero_iff _).mpr (Or.inl h))]
  · rw [pass1, if_pos ((mask_score_zero_iff _).mpr (Or.inr h))]
  · by_cases hm : get_mask_score img.contour_count = 0
    · rw [pass1, if_pos hm]
    · rw [pass1, if_neg hm, if_pos h]

theorem pass1_of_passed (img : ImageMeasures) (h : ¬ gateRejects img) :
    pass1 img =
      { raw_brightness := img.raw_brightness,
        raw_sharpness := img.raw_sharpness, raw_pose := img.raw_pose,
        raw_mask_score := 1, S_sharpness := none, final_score := none } := by
  have h2 : ¬ (img.contour_count = 0 ∨ MAX_CONTOUR_COUNT < img.contour_count ∨
      img.raw_sharpness < MIN_SHARPNESS_THRESHOLD) := h
  push_neg at h2
  obtain ⟨h0, h3, hs⟩ := h2
  have hm : ¬ get_mask_score img.contour_count = 0 := by
    rw [mask_score_zero_iff]
    push_neg
    exact ⟨h0, h3⟩
  rw [pass1, if_neg hm, if_neg (not_lt.mpr hs)]

/-- Claim C2: a candidate's final score is 0.0 exactly when the Quality Gate
rejected it (large-region count 0 or above `MAX_CONTOUR_COUNT`, or raw
sharpness below the 50.0 floor); a gated candidate (in particular a
topology-failing one, whatever its sharpness) keeps `final_score = some 0`
and is left untouched by normalization; and a candidate passing both gates
gets a strictly positive final score, so the sentinel never collides with a
genuine score. Pose and brightness scores are nonnegative by construction in
the script; here that is a hypothesis on the inputs. -/
theorem final_score_zero_iff_gate (imgs : List ImageMeasures)
    (hpose : ∀ img ∈ imgs, 0 ≤ img.raw_pose)
    (hbright : ∀ img ∈ imgs, 0 ≤ img.raw_brightness) :
    scorePipeline imgs = imgs.map (pipelineEntry imgs) ∧
    ∀ img ∈ imgs,
      (getFinal (pipelineEntry imgs img) = 0 ↔ gateRejects img) ∧
      (gateRejects img → pipelineEntry imgs img = pass1 img ∧
        (pass1 img).final_score = some 0) ∧
      (¬ gateRejects img → 0 < getFinal (pipelineEntry imgs img)) := by
  constructor
  · rw [scorePipeline, List.map_map]
    rfl
  · intro img hmem
    have hgated : gateRejects img →
        pipelineEntry imgs img = pass1 img ∧
          (pass1 img).final_score = some 0 := by
      intro hg
      have hps := pass1_of_gated img hg
      have hgf : getFinal (pass1 img) = 0 := by
        rw [getFinal, hps]
        rfl
      exact ⟨by rw [pipelineEntry, normalizeEntry, if_pos hgf], hps⟩
    have hpassed : ¬ gateRejects img →
        0 < getFinal (pipelineEntry imgs img) := by
      intro hg
      have hp1 := pass1_of_passed img hg
      have hgf : getFinal (pass1 img) = 1 := by
        rw [getFinal, hp1]
        rfl
      have hg2 : ¬ (img.contour_count = 0 ∨
          MAX_CONTOUR_COUNT < img.contour_count ∨
          img.raw_sharpness < MIN_SHARPNESS_THRESHOLD) := hg
      push_neg at hg2
      obtain ⟨-, -, hs⟩ := hg2
      have hvalid : pass1 img ∈ validScores (imgs.map pass1) := by
        rw [validScores, List.mem_filter]
        refine ⟨List.mem_map.mpr ⟨img, hmem, rfl⟩, ?_⟩
        simp [hgf]
      have hsharpmem : img.raw_sharpness ∈
          (validScores (imgs.map pass1)).map (fun e => e.raw_sharpness) := by
        refine List.mem_map.mpr ⟨pass1 img, hvalid, ?_⟩
        rw [hp1]
      have hMraw : MIN_SHARPNESS_THRESHOLD ≤
          pyMax ((validScores (imgs.map pass1)).map
            (fun e => e.raw_sharpness)) :=
        le_trans hs (le_pyMax_of_mem hsharpmem)
      have hpy : 0 < pyMax ((validScores (imgs.map pass1)).map
          (fun e => e.raw_sharpness)) :=
        lt_of_lt_of_le (by norm_num [MIN_SHARPNESS_THRESHOLD]) hMraw
      have hMpos : 0 < maxSharpnessOf (imgs.map pass1) := by
        rw [maxSharpnessOf, normDenom, if_neg (ne_of_gt hpy)]
        exact hpy
      have hspos : 0 < img.raw_sharpness :=
        lt_of_lt_of_le (by norm_num [MIN_SHARPNESS_THRESHOLD]) hs
      rw [pipelineEntry, normalizeEntry, if_neg (by rw [hgf]; norm_num), hp1]
      rw [getFinal]
      simp only [Option.getD_some]
      have h1 : 0 ≤ img.raw_pose * WEIGHT_POSE :=
        mul_nonneg (hpose img hmem) (by norm_num [WEIGHT_POSE])
      have h2 : 0 < (img.raw_sharpness / maxSharpnessOf (imgs.map pass1))
          * WEIGHT_SHARPNESS :=
        mul_pos (div_pos hspos hMpos) (by norm_num [WEIGHT_SHARPNESS])
      have h3 : 0 ≤ img.raw_brightness * WEIGHT_BRIGHTNESS :=
        mul_nonneg (hbright img hmem) (by norm_num [WEIGHT_BRIGHTNESS])
      linarith
    refine ⟨⟨fun h0 => ?_, fun hg => ?_⟩, hgated, hpassed⟩
    · by_contra hg
      exact absurd h0 (ne_of_gt (hpassed hg))
    · obtain ⟨he, hps⟩ := hgated hg
      rw [he, getFinal, hps]
      rfl

/-- Witness for C2: a concrete category with one surviving candidate (one
large region, sharpness 60) and one topology-gated candidate whose sharpness
would pass the floor. -/
theorem final_score_zero_iff_gate_witness :
    0 < getFinal (pipelineEntry [⟨1, 60, 1, 1⟩, ⟨0, 999, 1, 1⟩]
      ⟨1, 60, 1, 1⟩) :=
  ((final_score_zero_iff_gate [⟨1, 60, 1, 1⟩, ⟨0, 999, 1, 1⟩]
    (by decide) (by decide)).2 ⟨1, 60, 1, 1⟩ (by decide)).2.2 (by decide)

/-- Claim C8: the pre-selection sort permutes the candidates, orders them by
final score descending, and is stable: for every score value the subsequence
of candidates carrying that score is exactly the one of the input, in input
order — so ties preserve relative input order. -/
theorem sort_desc_stable (l : List Item) :
    (sortByScore l).Perm l ∧
    (sortByScore l).Pairwise (fun a b => b.final_score ≤ a.final_score) ∧
    ∀ q : ℚ, (sortByScore l).filter (fun x => decide (x.final_score = q))
      = l.filter (fun x => decide (x.final_score = q)) := by
  have htrans : ∀ a b c : Item,
      (decide (b.final_score ≤ a.final_score)) = true →
      (decide (c.final_score ≤ b.final_score)) = true →
      (decide (c.final_score ≤ a.final_score)) = true := by
    intro a b c h1 h2
    rw [decide_eq_true_eq] at h1 h2 ⊢
    exact le_trans h2 h1
  have htotal : ∀ a b : Item,
      ((decide (b.final_score ≤ a.final_score)) ||
        (decide (a.final_score ≤ b.final_score))) = true := by
    intro a b
    rw [Bool.or_eq_true, decide_eq_true_eq, decide_eq_true_eq]
    exact le_total b.final_score a.final_score
  refine ⟨List.mergeSort_perm l _, ?_, ?_⟩
  · exact (List.sorted_mergeSort htrans htotal l).imp
      (fun h => of_decide_eq_true h)
  · intro q
    have hpw : (l.filter (fun x => decide (x.final_score = q))).Pairwise
        (fun a b => (decide (b.final_score ≤ a.final_score)) = true) := by
      rw [List.pairwise_iff_forall_sublist]
      intro a b hab
      have ha : a ∈ l.filter (fun x => decide (x.final_score = q)) :=
        hab.subset (List.mem_cons_self a [b])
      have hb : b ∈ l.filter (fun x => decide (x.final_score = q)) :=
        hab.subset (List.mem_cons_of_mem a (List.mem_cons_self b []))
      have ha2 : a.final_score = q := by
        have h5 := List.of_mem_filter ha
        simp only [decide_eq_true_eq] at h5
        exact h5
      have hb2 : b.final_score = q := by
        have h5 := List.of_mem_filter hb
        simp only [decide_eq_true_eq] at h5
        exact h5
      rw [decide_eq_true_eq, hb2, ha2]
    have hsub2 : List.Sublist (l.filter (fun x => decide (x.final_score = q)))
        (sortByScore l) :=
      List.sublist_mergeSort htrans htotal hpw (List.filter_sublist l)
    have heq : (l.filter (fun x => decide (x.final_score = q))).filter
        (fun x => decide (x.final_score = q))
          = l.filter (fun x => decide (x.final_score = q)) := by
      rw [List.filter_eq_self]
      intro a ha
      have h5 := List.of_mem_filter ha
      exact h5
    have hsub3 : List.Sublist
        (l.filter (fun x => decide (x.final_score = q)))
        ((sortByScore l).filter (fun x => decide (x.final_score = q))) := by
      have h4 := List.Sublist.filter (fun x => decide (x.final_score = q)) hsub2
      rw [heq] at h4
      exact h4
    have hperm : ((sortByScore l).filter
        (fun x => decide (x.final_score = q))).Perm
          (l.filter (fun x => decide (x.final_score = q))) :=
      (List.mergeSort_perm l _).filter _
    exact (hsub3.eq_of_length hperm.length_eq.symm).symm

theorem pySplitFrame_ne_nil (s : List Char) : pySplitFrame s ≠ [] := by
  cases s with
  | nil => simp [pySplitFrame]
  | cons c rest =>
    simp only [pySplitFrame]
    split
    · simp
    · split
      · simp
      · simp

theorem pySplitFrame_head (s : List Char) :
    ∃ tl, pySplitFrame s = takeUntilSep s :: tl := by
  induction s with
  | nil => exact ⟨[], by simp [pySplitFrame, takeUntilSep]⟩
  | cons c rest ih =>
    by_cases hp : SEP.isPrefixOf (c :: rest) = true
    · refine ⟨pySplitFrame (rest.drop (SEP.length - 1)), ?_⟩
      simp only [pySplitFrame, takeUntilSep]
      rw [if_pos hp, if_pos hp]
    · obtain ⟨tl, htl⟩ := ih
      refine ⟨tl, ?_⟩
      simp only [pySplitFrame, takeUntilSep]
      rw [if_neg hp, if_neg hp, htl]

theorem get_source_video_eq (s : List Char) :
    get_source_video s = takeUntilSep s := by
  obtain ⟨tl, htl⟩ := pySplitFrame_head s
  unfold get_source_video
  rw [htl]

theorem takeUntilSep_no_occurrence (s : List Char)
    (h : ∀ i < s.length, ¬ SEP <+: s.drop i) : takeUntilSep s = s := by
  induction s with
  | nil => rfl
  | cons c rest ih =>
    have h0 : ¬ SEP <+: (c :: rest) := by
      have h1 := h 0 (Nat.succ_pos _)
      simpa using h1
    have hp : ¬ SEP.isPrefixOf (c :: rest) = true := by
      intro hb
      exact h0 (List.isPrefixOf_iff_prefix.mp hb)
    have hrest : ∀ i < rest.length, ¬ SEP <+: rest.drop i := by
      intro i hi
      have h2 := h (i + 1) (by simpa using Nat.succ_lt_succ hi)
      simpa using h2
    simp only [takeUntilSep]
    rw [if_neg hp, ih hrest]

theorem takeUntilSep_occurrence (s : List Char)
    (h : ∃ i, i < s.length ∧ SEP <+: s.drop i) :
    SEP <+: s.drop (takeUntilSep s).length := by
  induction s with
  | nil =>
    obtain ⟨i, hi, -⟩ := h
    exact absurd hi (Nat.not_lt_zero i)
  | cons c rest ih =>
    by_cases hp : SEP.isPrefixOf (c :: rest) = true
    · have h0 : SEP <+: (c :: rest) := List.isPrefixOf_iff_prefix.mp hp
      simp only [takeUntilSep]
      rw [if_pos hp]
      simpa using h0
    · obtain ⟨i, hi, hocc⟩ := h
      have hi0 : i ≠ 0 := by
        intro h0
        rw [h0, List.drop_zero] at hocc
        exact hp (List.isPrefixOf_iff_prefix.mpr hocc)
      obtain ⟨j, rfl⟩ := Nat.exists_eq_succ_of_ne_zero hi0
      have hrest : ∃ i2, i2 < rest.length ∧ SEP <+: rest.drop i2 := by
        refine ⟨j, ?_, ?_⟩
        · simpa using hi
        · simpa using hocc
      have ih2 := ih hrest
      simp only [takeUntilSep]
      rw [if_neg hp]
      simpa using ih2

theorem matchFrameAt_some {s ds : List Char} (h : matchFrameAt s = some ds) :
    ∃ mid ext, s = mid ++ ds ++ ('.' :: ext) ∧ lowerEq mid SEP = true ∧
      ds ≠ [] ∧ (∀ c ∈ ds, c.isDigit = true) ∧
      EXT_LIST.any (fun e => lowerEq ext e) = true := by
  rw [matchFrameAt] at h
  split at h
  case isFalse => exact absurd h (by simp)
  case isTrue hp =>
    split at h
    case isTrue => exact absurd h (by simp)
    case isFalse hd =>
      split at h
      case h_2 => exact absurd h (by simp)
      case h_1 extPart heq =>
        split at h
        case isFalse => exact absurd h (by simp)
        case isTrue hext =>
          rw [Option.some.injEq] at h
          subst h
          have hlen : SEP.length ≤ s.length := by
            have h3 : (SEP.map Char.toLower) <+: (s.map Char.toLower) :=
              List.isPrefixOf_iff_prefix.mp hp
            have h4 := h3.length_le
            rw [List.length_map, List.length_map] at h4
            exact h4
          have h1 : digitsOf s ++ afterDigits s = s.drop SEP.length := by
            rw [afterDigits]
            conv_rhs => rw [← List.take_append_drop (digitsOf s).length
              (s.drop SEP.length)]
            congr 1
            rw [digitsOf]
            exact List.prefix_iff_eq_take.mp
              (List.takeWhile_prefix Char.isDigit)
          have h2 : s = s.take SEP.length ++ digitsOf s ++ ('.' :: extPart) := by
            conv_lhs => rw [← List.take_append_drop SEP.length s]
            rw [← h1, heq, List.append_assoc]
          have hmid : lowerEq (s.take SEP.length) SEP = true := by
            rw [lowerEq, decide_eq_true_eq]
            have h3 : (SEP.map Char.toLower) <+: (s.map Char.toLower) :=
              List.isPrefixOf_iff_prefix.mp hp
            have h4 := List.prefix_iff_eq_take.mp h3
            rw [List.length_map] at h4
            rw [List.map_take]
            exact h4.symm
          refine ⟨s.take SEP.length, extPart, h2, hmid, hd, ?_, hext⟩
          intro c hc
          exact List.mem_takeWhile_imp hc

theorem searchFrameMatch_some :
    ∀ {s ds : List Char}, searchFrameMatch s = some ds →
      EndsWithFrameSuffix s := by
  intro s
  induction s with
  | nil =>
    intro ds h
    rw [searchFrameMatch] at h
    exact absurd h (by simp)
  | cons c rest ih =>
    intro ds h
    rw [searchFrameMatch] at h
    cases hm : matchFrameAt (c :: rest) with
    | some d =>
      obtain ⟨mid, ext, hseq, hmid, hne, hdig, hext⟩ := matchFrameAt_some hm
      exact ⟨[], mid, d, ext, by rw [List.nil_append]; exact hseq,
        hmid, hne, hdig, hext⟩
    | none =>
      rw [hm] at h
      obtain ⟨pre, mid, ds2, ext, hseq, hmid, hne, hdig, hext⟩ := ih h
      exact ⟨c :: pre, mid, ds2, ext, by rw [hseq]; rfl,
        hmid, hne, hdig, hext⟩

/-- Claim C10: filename parsing is total and never signals an error. The
split underlying `get_source_video` always returns a nonempty list, so the
`IndexError` fallback `"unknown_source"` is unreachable; `get_source_video`
returns the characters before the first `"_frame_"` occurrence — the whole
filename when the separator is absent, and the separator indeed occurs right
after the returned prefix when present; and `get_frame_index` returns 0 for
every filename not ending in `_frame_<digits>.<jpg|jpeg|png|webp>`
(case-insensitively), silently treating unparseable names as frame 0. -/
theorem filename_parsing_total :
    (∀ s : List Char, pySplitFrame s ≠ []) ∧
    (∀ s : List Char, get_source_video s = takeUntilSep s) ∧
    (∀ s : List Char, (∀ i < s.length, ¬ SEP <+: s.drop i) →
      takeUntilSep s = s) ∧
    (∀ s : List Char, (∃ i, i < s.length ∧ SEP <+: s.drop i) →
      SEP <+: s.drop (takeUntilSep s).length) ∧
    (∀ s : List Char, EndsWithFrameSuffix s ∨ get_frame_index s = 0) := by
  refine ⟨pySplitFrame_ne_nil, get_source_video_eq,
    takeUntilSep_no_occurrence, takeUntilSep_occurrence, ?_⟩
  intro s
  cases hs : searchFrameMatch s with
  | some ds => exact Or.inl (searchFrameMatch_some hs)
  | none =>
    refine Or.inr ?_
    rw [get_frame_index, hs]

/-- Witness for C10 on a concrete separator-free filename. -/
theorem filename_parsing_total_witness :
    takeUntilSep "abc".toList = "abc".toList :=
  filename_parsing_total.2.2.1 "abc".toList (by decide)

end Curation
